import Mathlib

/-!
Shallow embedding of the event-frequency tracker in `evhz_sdl2.cpp`.

The core of the program is two functions:

* `processEvent` — per-device-class event ingestion: duplicate suppression,
  first-sample sentinel, frequency computation `1000.0 / (ts - last)` under
  unsigned 32-bit subtraction, and FIFO eviction down to a window of
  `event_data_freq_array_size = 64` samples;
* `logEventData` — per-class max/average over the current frequency window,
  skipping classes with an empty window.

Timestamps (`Uint32` in SDL2) are modelled as `Nat` values together with an
explicit wrap-around subtraction `usub32` that reduces modulo `2^32`.
`double` frequency values are modelled as `ℚ`; every concrete value the
claims mention (`0`, `100`, `50`, `62.5`, `1000/Δ`) is exact in both.
The `std::map<TimedEventType, EventData>` registry is modelled as an
association list kept sorted by key order, matching `std::map` iteration
order and key uniqueness.
-/

set_option autoImplicit false

namespace Evhz

/-- `const int event_data_freq_array_size = 64;` -/
def event_data_freq_array_size : Nat := 64

/-- `enum class TimedEventType { Keyboard, Mouse };` -/
inductive TimedEventType where
  | Keyboard
  | Mouse
deriving DecidableEq, Repr

/-- `TimedEventTypeToString` from the source. -/
def TimedEventTypeToString (t : TimedEventType) : String :=
  match t with
  | .Keyboard => "Keyboard"
  | .Mouse => "Mouse"

/-- `class EventData { std::vector<uint32_t> timestamps; std::vector<double>
freq_array; double average_freq = 0.0f; };` — timestamps as `Nat` (Uint32
values), frequencies as `ℚ` (exact stand-in for `double`). -/
structure EventData where
  timestamps : List Nat
  freq_array : List ℚ
  average_freq : ℚ := 0
deriving DecidableEq, Repr

/-- A default-constructed `EventData`, as produced by `std::map::operator[]`
for an absent key. -/
def emptyEventData : EventData := { timestamps := [], freq_array := [] }

/-- `2^32`, the modulus of `uint32_t` arithmetic. -/
def u32size : Nat := 4294967296

/-- Unsigned 32-bit subtraction `a - b` (the semantics of
`e.common.timestamp - v.timestamps.back()` on `Uint32` operands): both
arguments reduced mod `2^32`, with wrap-around on underflow. -/
def usub32 (a b : Nat) : Nat :=
  (a % u32size + u32size - b % u32size) % u32size

/-- The `while(v.freq_array.size() > event_data_freq_array_size)` eviction
loop at the end of `processEvent`: erase the front element of `freq_array`
and of `timestamps` until the frequency window is within bounds. -/
def evictLoop (v : EventData) : EventData :=
  if event_data_freq_array_size < v.freq_array.length then
    evictLoop { timestamps := v.timestamps.tail
                freq_array := v.freq_array.tail
                average_freq := v.average_freq }
  else v
termination_by v.freq_array.length
decreasing_by
  simp only [List.length_tail]
  omega

/-- The per-`EventData` body of `processEvent` acting on the entry for the
event's class: duplicate suppression against `timestamps.back()`, then the
frequency append (`0.0` sentinel when `freq_array` is empty, otherwise
`1000.0 / (ts - back)` under Uint32 subtraction), the timestamp append, and
the eviction loop.  `getD 0` stands in for the `timestamps.back()` read in
the branch where `freq_array` is non-empty but `timestamps` is empty, a
state the program never reaches (C++ would have undefined behaviour there). -/
def processEventData (ts : Nat) (v : EventData) : EventData :=
  if ¬ v.timestamps.isEmpty ∧ v.timestamps.getLast? = some ts then
    v
  else
    let fa :=
      if v.freq_array.isEmpty then
        v.freq_array ++ [(0 : ℚ)]
      else
        v.freq_array ++ [1000 / ((usub32 ts (v.timestamps.getLast?.getD 0) : Nat) : ℚ)]
    evictLoop { timestamps := v.timestamps ++ [ts]
                freq_array := fa
                average_freq := v.average_freq }

/-- Numeric key order of `TimedEventType`, the order `std::map` keeps its
keys in (`Keyboard` before `Mouse`, matching enumerator order). -/
def keyIndex (t : TimedEventType) : Nat :=
  match t with
  | .Keyboard => 0
  | .Mouse => 1

/-- The registry `std::map<TimedEventType, EventData>`, as an association
list sorted by `keyIndex`. -/
abbrev Registry := List (TimedEventType × EventData)

/-- `std::map` lookup. -/
def mapFind (m : Registry) (t : TimedEventType) : Option EventData :=
  match m with
  | [] => none
  | (k, v) :: rest => if k = t then some v else mapFind rest t

/-- `std::map` insert-or-assign, keeping keys sorted by `keyIndex` (the
order `std::map` iterates in). -/
def mapInsert (m : Registry) (t : TimedEventType) (v : EventData) : Registry :=
  match m with
  | [] => [(t, v)]
  | (k, w) :: rest =>
    if k = t then (t, v) :: rest
    else if keyIndex t < keyIndex k then (t, v) :: (k, w) :: rest
    else (k, w) :: mapInsert rest t v

/-- `processEvent(TimedEventType t, SDL_Event& e, std::map<...>& events)`:
`events[t]` default-constructs the entry when absent, and the entry is then
updated in place by the duplicate check / append / evict body. -/
def processEvent (t : TimedEventType) (ts : Nat) (m : Registry) : Registry :=
  let v := (mapFind m t).getD emptyEventData
  mapInsert m t (processEventData ts v)

/-- Run a whole sequence of classified events `(class, timestamp)` through
`processEvent`, starting from the empty registry of `main`. -/
def runEvents (evs : List (TimedEventType × Nat)) : Registry :=
  evs.foldl (fun m p => processEvent p.1 p.2 m) []

/-- Feed a list of timestamps of a single class through the per-entry body,
starting from a fresh (default-constructed) `EventData`. -/
def runClass (l : List Nat) : EventData :=
  l.foldl (fun v ts => processEventData ts v) emptyEventData

/-- The inner statistics loop of `logEventData` on one window:
`avgF += f; maxF = std::max(maxF, f);` over the window with both
accumulators starting at `0.0`, then `avgF /= e.freq_array.size();`.
Returns `(maxF, avgF)`. -/
def summarizeFold (fa : List ℚ) : ℚ × ℚ :=
  let r := fa.foldl (fun acc f => (acc.1 + f, max acc.2 f)) (0, 0)
  (r.2, r.1 / (fa.length : ℚ))

/-- One iteration of the `for( auto& t : events )` loop body of
`logEventData`: skip the entry when its `freq_array` is empty, otherwise
emit one report line `(class, maxF, avgF)`; the registry component of the
accumulator is never written to. -/
def logLineStep (acc : List (TimedEventType × ℚ × ℚ) × Registry)
    (p : TimedEventType × EventData) : List (TimedEventType × ℚ × ℚ) × Registry :=
  if p.2.freq_array.isEmpty then acc
  else (acc.1 ++ [(p.1, summarizeFold p.2.freq_array)], acc.2)

/-- `logEventData(std::map<...>& events)`: iterate the registry in map
order, emitting one line per entry with a non-empty window.  The registry
is taken by reference and only read, so the function returns the emitted
lines together with the registry it leaves behind. -/
def logEventData (m : Registry) : List (TimedEventType × ℚ × ℚ) × Registry :=
  m.foldl logLineStep ([], m)

/-! ### Step lemmas for `evictLoop` and `processEventData` -/

/-- The eviction loop does nothing when the frequency window is already
within bounds. -/
theorem evictLoop_eq_self (v : EventData)
    (h : v.freq_array.length ≤ event_data_freq_array_size) :
    evictLoop v = v := by
  rw [evictLoop]
  exact if_neg (by omega)

/-- The eviction loop removes exactly one element from the front of each
list when the frequency window exceeds the bound by one. -/
theorem evictLoop_eq_tail (v : EventData)
    (h : v.freq_array.length = event_data_freq_array_size + 1) :
    evictLoop v = { timestamps := v.timestamps.tail
                    freq_array := v.freq_array.tail
                    average_freq := v.average_freq } := by
  rw [evictLoop]
  rw [if_pos (show event_data_freq_array_size < v.freq_array.length by omega)]
  exact evictLoop_eq_self _ (by simp only [List.length_tail]; omega)

/-- The duplicate-suppression condition of `processEvent` is equivalent to
the last stored timestamp being the incoming one (non-emptiness of the
vector is implied). -/
theorem dup_cond_iff (v : EventData) (ts : Nat) :
    ((¬ v.timestamps.isEmpty) ∧ v.timestamps.getLast? = some ts) ↔
      v.timestamps.getLast? = some ts := by
  constructor
  · exact fun h => h.2
  · intro h
    refine ⟨?_, h⟩
    intro he
    rw [List.isEmpty_iff] at he
    rw [he] at h
    simp at h

/-- Duplicate suppression: an event whose timestamp equals the last stored
one leaves the state untouched. -/
theorem processEventData_dup (ts : Nat) (v : EventData)
    (h : v.timestamps.getLast? = some ts) :
    processEventData ts v = v := by
  rw [processEventData, if_pos ((dup_cond_iff v ts).mpr h)]

/-- First-sample case: with an empty frequency window and the duplicate
check failing, the event appends the sentinel `0` frequency and the
timestamp. -/
theorem processEventData_first (ts : Nat) (v : EventData)
    (hdup : v.timestamps.getLast? ≠ some ts) (hfa : v.freq_array = []) :
    processEventData ts v =
      { timestamps := v.timestamps ++ [ts], freq_array := [0]
        average_freq := v.average_freq } := by
  rw [processEventData, if_neg (by rw [dup_cond_iff]; exact hdup)]
  simp only [hfa, List.isEmpty_nil, if_pos, List.nil_append]
  exact evictLoop_eq_self _ (by simp [event_data_freq_array_size])

/-- General case: with a non-empty frequency window and a fresh timestamp,
the event appends `1000 / usub32 ts last` and the timestamp, then runs the
eviction loop. -/
theorem processEventData_step (ts last : Nat) (v : EventData)
    (hlast : v.timestamps.getLast? = some last) (hne : ts ≠ last)
    (hfa : ¬ v.freq_array.isEmpty) :
    processEventData ts v =
      evictLoop { timestamps := v.timestamps ++ [ts]
                  freq_array := v.freq_array ++ [1000 / ((usub32 ts last : Nat) : ℚ)]
                  average_freq := v.average_freq } := by
  rw [processEventData,
    if_neg (by rw [dup_cond_iff, hlast]; intro hc; exact hne (Option.some.inj hc).symm)]
  simp only [if_neg hfa, hlast, Option.getD_some]

/-- Closed form of one non-duplicate, non-first event under the window
invariant: both lists gain the new sample at the back and lose
`len + 1 - 64` elements (zero or one) at the front. -/
theorem processEventData_closed (ts last : Nat) (v : EventData)
    (hlast : v.timestamps.getLast? = some last) (hne : ts ≠ last)
    (hfa : v.freq_array ≠ [])
    (hwf : v.freq_array.length = v.timestamps.length)
    (hle : v.timestamps.length ≤ event_data_freq_array_size) :
    processEventData ts v =
      { timestamps :=
          (v.timestamps ++ [ts]).drop (v.timestamps.length + 1 - event_data_freq_array_size)
        freq_array :=
          ((v.freq_array ++ [1000 / ((usub32 ts last : Nat) : ℚ)])).drop
            (v.timestamps.length + 1 - event_data_freq_array_size)
        average_freq := v.average_freq } := by
  rw [processEventData_step ts last v hlast hne (by simpa [List.isEmpty_iff] using hfa)]
  rcases Nat.lt_or_ge v.timestamps.length event_data_freq_array_size with hlt | hge
  · rw [evictLoop_eq_self _ (by simp only [List.length_append, List.length_singleton]; omega)]
    have hd : v.timestamps.length + 1 - event_data_freq_array_size = 0 := by omega
    rw [hd, List.drop_zero, List.drop_zero]
  · have hge' : v.timestamps.length = event_data_freq_array_size := le_antisymm hle hge
    rw [evictLoop_eq_tail _ (by simp only [List.length_append, List.length_singleton]; omega)]
    have hd : v.timestamps.length + 1 - event_data_freq_array_size = 1 := by omega
    rw [hd, List.drop_one, List.drop_one]

/-- Dropping fewer elements than the length of a list does not change its
last element. -/
theorem getLast?_drop_of_lt {α : Type} (l : List α) (k : Nat) (hk : k < l.length) :
    (l.drop k).getLast? = l.getLast? := by
  conv_rhs => rw [← List.take_append_drop k l]
  rw [List.getLast?_append_of_ne_nil]
  intro he
  have := congrArg List.length he
  simp only [List.length_drop, List.length_nil] at this
  omega

/-- The window invariant of a `TrackerState`: parallel lists, bounded by
`event_data_freq_array_size`. -/
def EventDataWF (v : EventData) : Prop :=
  v.freq_array.length = v.timestamps.length ∧
  v.timestamps.length ≤ event_data_freq_array_size

/-- One `processEvent` body call preserves the window invariant and leaves
the entry with at least one sample in each list. -/
theorem processEventData_wf (ts : Nat) (v : EventData) (h : EventDataWF v) :
    EventDataWF (processEventData ts v) ∧
      (processEventData ts v).timestamps ≠ [] ∧
      (processEventData ts v).freq_array ≠ [] := by
  obtain ⟨hlen, hle⟩ := h
  by_cases hdup : v.timestamps.getLast? = some ts
  · rw [processEventData_dup ts v hdup]
    have hne : v.timestamps ≠ [] := by
      intro he
      rw [he] at hdup
      simp at hdup
    refine ⟨⟨hlen, hle⟩, hne, ?_⟩
    intro he
    rw [he] at hlen
    simp only [List.length_nil] at hlen
    exact hne (List.length_eq_zero.mp hlen.symm)
  · by_cases hfa : v.freq_array = []
    · rw [processEventData_first ts v hdup hfa]
      have hts : v.timestamps = [] := by
        rw [hfa] at hlen
        exact List.length_eq_zero.mp hlen.symm
      refine ⟨⟨?_, ?_⟩, by simp [hts], by simp⟩
      · simp [hts]
      · simp [hts, event_data_freq_array_size]
    · have hts : v.timestamps ≠ [] := by
        intro he
        rw [he] at hlen
        simp only [List.length_nil] at hlen
        exact hfa (List.length_eq_zero.mp hlen)
      obtain ⟨last, hlast⟩ := Option.ne_none_iff_exists'.mp
        (mt List.getLast?_eq_none_iff.mp hts)
      have hne : ts ≠ last := by
        intro he
        exact hdup (he ▸ hlast)
      rw [processEventData_closed ts last v hlast hne hfa hlen hle]
      refine ⟨⟨?_, ?_⟩, ?_, ?_⟩
      · simp only [List.length_drop, List.length_append, List.length_singleton, hlen]
      · simp only [List.length_drop, List.length_append, List.length_singleton,
          event_data_freq_array_size]
        omega
      · refine List.length_pos.mp ?_
        simp only [List.length_drop, List.length_append, List.length_singleton,
          event_data_freq_array_size]
        omega
      · refine List.length_pos.mp ?_
        simp only [List.length_drop, List.length_append, List.length_singleton,
          event_data_freq_array_size, hlen]
        omega

/-- One `processEvent` body call keeps every stored frequency sample
non-negative: the sentinel is `0`, and `1000 / delta` with a `Nat`-valued
denominator is never negative in `ℚ`. -/
theorem processEventData_nonneg (ts : Nat) (v : EventData) (hwf : EventDataWF v)
    (h : ∀ x ∈ v.freq_array, 0 ≤ x) :
    ∀ x ∈ (processEventData ts v).freq_array, 0 ≤ x := by
  obtain ⟨hlen, hle⟩ := hwf
  by_cases hdup : v.timestamps.getLast? = some ts
  · rw [processEventData_dup ts v hdup]
    exact h
  · by_cases hfa : v.freq_array = []
    · rw [processEventData_first ts v hdup hfa]
      intro x hx
      simp only [List.mem_singleton] at hx
      rw [hx]
    · have htsne : v.timestamps ≠ [] := by
        intro he
        rw [he] at hlen
        simp only [List.length_nil] at hlen
        exact hfa (List.length_eq_zero.mp hlen)
      obtain ⟨last, hlast⟩ := Option.ne_none_iff_exists'.mp
        (mt List.getLast?_eq_none_iff.mp htsne)
      have hne : ts ≠ last := fun he => hdup (he ▸ hlast)
      rw [processEventData_closed ts last v hlast hne hfa hlen hle]
      intro x hx
      have hx' := List.mem_of_mem_drop hx
      rcases List.mem_append.mp hx' with h2 | h2
      · exact h x h2
      · simp only [List.mem_singleton] at h2
        rw [h2]
        exact div_nonneg (by norm_num) (Nat.cast_nonneg _)

/-! ### Registry (`std::map`) lemmas -/

theorem mem_mapInsert {m : Registry} {t : TimedEventType} {v : EventData}
    {p : TimedEventType × EventData} (h : p ∈ mapInsert m t v) :
    p = (t, v) ∨ p ∈ m := by
  induction m with
  | nil =>
    simp only [mapInsert, List.mem_singleton] at h
    exact Or.inl h
  | cons q rest ih =>
    obtain ⟨k, w⟩ := q
    simp only [mapInsert] at h
    split_ifs at h with h1 h2
    · rcases List.mem_cons.mp h with h3 | h3
      · exact Or.inl h3
      · exact Or.inr (List.mem_cons_of_mem _ h3)
    · rcases List.mem_cons.mp h with h3 | h3
      · exact Or.inl h3
      · exact Or.inr h3
    · rcases List.mem_cons.mp h with h3 | h3
      · exact Or.inr (h3 ▸ List.mem_cons_self _ _)
      · rcases ih h3 with h4 | h4
        · exact Or.inl h4
        · exact Or.inr (List.mem_cons_of_mem _ h4)

theorem mapFind_mem {m : Registry} {t : TimedEventType} {v : EventData}
    (h : mapFind m t = some v) : (t, v) ∈ m := by
  induction m with
  | nil => simp [mapFind] at h
  | cons q rest ih =>
    obtain ⟨k, w⟩ := q
    simp only [mapFind] at h
    split_ifs at h with h1
    · injection h with h2
      rw [h1, h2]
      exact List.mem_cons_self _ _
    · exact List.mem_cons_of_mem _ (ih h)

theorem mapFind_mapInsert_self (m : Registry) (t : TimedEventType) (v : EventData) :
    mapFind (mapInsert m t v) t = some v := by
  induction m with
  | nil => simp [mapInsert, mapFind]
  | cons q rest ih =>
    obtain ⟨k, w⟩ := q
    simp only [mapInsert]
    split_ifs with h1 h2
    · simp [mapFind]
    · simp [mapFind]
    · simp only [mapFind, if_neg h1]
      exact ih

/-- Inserting under one key leaves lookups of any other key unchanged. -/
theorem mapFind_mapInsert_ne (m : Registry) (t t' : TimedEventType) (v : EventData)
    (hne : t' ≠ t) : mapFind (mapInsert m t v) t' = mapFind m t' := by
  induction m with
  | nil => simp [mapInsert, mapFind, if_neg (Ne.symm hne)]
  | cons q rest ih =>
    obtain ⟨k, w⟩ := q
    simp only [mapInsert]
    split_ifs with h1 h2
    · subst h1
      simp only [mapFind, if_neg (Ne.symm hne)]
    · simp only [mapFind, if_neg (Ne.symm hne)]
    · simp only [mapFind]
      split_ifs with h3
      · rfl
      · exact ih

/-- Invariant carried by every entry of a reachable registry: parallel
bounded lists, both non-empty, all frequency samples non-negative. -/
def RegistryInv (m : Registry) : Prop :=
  ∀ p ∈ m, EventDataWF p.2 ∧ p.2.timestamps ≠ [] ∧ p.2.freq_array ≠ [] ∧
    ∀ x ∈ p.2.freq_array, 0 ≤ x

theorem emptyEventData_wf : EventDataWF emptyEventData := by
  constructor <;> simp [emptyEventData, event_data_freq_array_size]

theorem processEvent_inv (t : TimedEventType) (ts : Nat) (m : Registry)
    (hm : RegistryInv m) : RegistryInv (processEvent t ts m) := by
  intro p hp
  simp only [processEvent] at hp
  rcases mem_mapInsert hp with h | h
  · have hbase : EventDataWF ((mapFind m t).getD emptyEventData) ∧
        ∀ x ∈ ((mapFind m t).getD emptyEventData).freq_array, 0 ≤ x := by
      cases hf : mapFind m t with
      | none =>
        refine ⟨by simpa [hf] using emptyEventData_wf, ?_⟩
        intro x hx
        simp [hf, emptyEventData] at hx
      | some v0 =>
        have hv0 := hm _ (mapFind_mem hf)
        exact ⟨by simpa [hf] using hv0.1, by simpa [hf] using hv0.2.2.2⟩
    obtain ⟨hwf, hnn⟩ := hbase
    have hstep := processEventData_wf ts _ hwf
    have hpos := processEventData_nonneg ts _ hwf hnn
    rw [h]
    exact ⟨hstep.1, hstep.2.1, hstep.2.2, hpos⟩
  · exact hm _ h

theorem foldl_processEvent_inv (evs : List (TimedEventType × Nat)) (m : Registry)
    (hm : RegistryInv m) :
    RegistryInv (evs.foldl (fun m p => processEvent p.1 p.2 m) m) := by
  induction evs generalizing m with
  | nil => exact hm
  | cons e rest ih => exact ih _ (processEvent_inv e.1 e.2 m hm)

/-- Every entry of a registry reached from `main`'s empty map satisfies the
window invariant and is non-empty. -/
theorem runEvents_inv (evs : List (TimedEventType × Nat)) : RegistryInv (runEvents evs) :=
  foldl_processEvent_inv evs [] (by intro p hp; simp at hp)

/-! ### Rolling-window content under strictly increasing timestamps -/

theorem runClass_append (l : List Nat) (a : Nat) :
    runClass (l ++ [a]) = processEventData a (runClass l) := by
  simp [runClass, List.foldl_append]

/-- Feeding a strictly increasing timestamp list to a fresh class keeps as
window exactly the most recent `event_data_freq_array_size` samples in
arrival order, with the frequency list in lockstep. -/
theorem runClass_chain (l : List Nat) (hc : List.Chain' (· < ·) l) :
    (runClass l).timestamps = l.drop (l.length - event_data_freq_array_size) ∧
    (runClass l).freq_array.length = (runClass l).timestamps.length ∧
    (runClass l).timestamps.getLast? = l.getLast? := by
  induction l using List.reverseRecOn with
  | nil => refine ⟨?_, ?_, ?_⟩ <;> simp [runClass, emptyEventData]
  | append_singleton l a ih =>
    obtain ⟨hch, -, hlt⟩ := List.chain'_append.mp hc
    rcases eq_or_ne l [] with rfl | hl
    · rw [runClass_append,
        processEventData_first a (runClass []) (by simp [runClass, emptyEventData])
          (by simp [runClass, emptyEventData])]
      refine ⟨?_, ?_, ?_⟩ <;>
        simp [runClass, emptyEventData, event_data_freq_array_size]
    · obtain ⟨hts, hlen, hlast⟩ := ih hch
      have hlpos : 0 < l.length := List.length_pos.mpr hl
      obtain ⟨last, hlast'⟩ := Option.ne_none_iff_exists'.mp
        (mt List.getLast?_eq_none_iff.mp hl)
      have hla : last < a := hlt last (by simp [hlast']) a (by simp)
      have htlen : (runClass l).timestamps.length =
          l.length - (l.length - event_data_freq_array_size) := by
        rw [hts, List.length_drop]
      have hfane : (runClass l).freq_array ≠ [] := by
        refine List.length_pos.mp ?_
        rw [hlen, htlen]
        simp only [event_data_freq_array_size] at *
        omega
      have hle : (runClass l).timestamps.length ≤ event_data_freq_array_size := by
        rw [htlen]
        simp only [event_data_freq_array_size]
        omega
      rw [runClass_append,
        processEventData_closed a last (runClass l) (hlast.trans hlast')
          (Nat.ne_of_gt hla) hfane hlen hle]
      have hdle : (runClass l).timestamps.length + 1 - event_data_freq_array_size ≤
          (runClass l).timestamps.length := by
        simp only [event_data_freq_array_size] at *
        omega
      have hts' : ((runClass l).timestamps ++ [a]).drop
            ((runClass l).timestamps.length + 1 - event_data_freq_array_size) =
          (l ++ [a]).drop ((l ++ [a]).length - event_data_freq_array_size) := by
        rw [List.drop_append_of_le_length hdle, hts, List.drop_drop,
          List.drop_append_of_le_length
            (show (l ++ [a]).length - event_data_freq_array_size ≤ l.length by
              simp only [List.length_append, List.length_singleton, event_data_freq_array_size]
              omega)]
        rw [show l.length - event_data_freq_array_size +
              ((List.drop (l.length - event_data_freq_array_size) l).length + 1 -
                event_data_freq_array_size) =
              (l ++ [a]).length - event_data_freq_array_size from by
            simp only [List.length_drop, List.length_append, List.length_singleton,
              event_data_freq_array_size]
            omega]
      refine ⟨hts', ?_, ?_⟩
      · simp only [List.length_drop, List.length_append, List.length_singleton, hlen, hts']
        omega
      · rw [hts']
        refine getLast?_drop_of_lt _ _ ?_
        simp only [List.length_append, List.length_singleton, event_data_freq_array_size]
        omega

/-! ### Aggregator lemmas -/

theorem statsFold_eq (fa : List ℚ) (s m : ℚ) :
    fa.foldl (fun acc f => (acc.1 + f, max acc.2 f)) (s, m) = (s + fa.sum, fa.foldl max m) := by
  induction fa generalizing s m with
  | nil => simp
  | cons a t ih => simp [ih, add_assoc]

/-- Closed form of `summarizeFold`: the reported pair is
`(foldl max 0, sum / length)`. -/
theorem summarizeFold_eq (fa : List ℚ) :
    summarizeFold fa = (fa.foldl max 0, fa.sum / (fa.length : ℚ)) := by
  show ((fa.foldl (fun acc f => (acc.1 + f, max acc.2 f)) (0, 0)).2,
        (fa.foldl (fun acc f => (acc.1 + f, max acc.2 f)) (0, 0)).1 / (fa.length : ℚ)) = _
  rw [statsFold_eq]
  simp

theorem le_foldl_max (fa : List ℚ) (m : ℚ) : m ≤ fa.foldl max m := by
  induction fa generalizing m with
  | nil => simp
  | cons a t ih => exact le_trans (le_max_left m a) (ih (max m a))

theorem mem_le_foldl_max (x : ℚ) (fa : List ℚ) : ∀ m : ℚ, x ∈ fa → x ≤ fa.foldl max m := by
  induction fa with
  | nil =>
    intro m hx
    simp at hx
  | cons a t ih =>
    intro m hx
    rcases List.mem_cons.mp hx with rfl | h
    · exact le_trans (le_max_right m x) (le_foldl_max t (max m x))
    · exact ih (max m a) h

theorem foldl_max_mem (fa : List ℚ) : ∀ m : ℚ, fa.foldl max m ∈ fa ∨ fa.foldl max m = m := by
  induction fa with
  | nil =>
    intro m
    exact Or.inr rfl
  | cons a t ih =>
    intro m
    rcases ih (max m a) with h | h
    · exact Or.inl (List.mem_cons_of_mem _ h)
    · rcases max_choice m a with h2 | h2
      · exact Or.inr ((show (a :: t).foldl max m = t.foldl max (max m a) from rfl).trans
          (h.trans h2))
      · refine Or.inl ?_
        rw [show (a :: t).foldl max m = t.foldl max (max m a) from rfl, h, h2]
        exact List.mem_cons_self _ _

/-- For a non-empty window of non-negative samples (every reachable window
is such), `summarizeFold` reports the list maximum and the list mean. -/
theorem summarizeFold_spec (fa : List ℚ) (hne : fa ≠ []) (hpos : ∀ x ∈ fa, 0 ≤ x) :
    (summarizeFold fa).2 = fa.sum / (fa.length : ℚ) ∧
    (summarizeFold fa).1 ∈ fa ∧ ∀ x ∈ fa, x ≤ (summarizeFold fa).1 := by
  rw [summarizeFold_eq]
  refine ⟨rfl, ?_, ?_⟩
  · rcases foldl_max_mem fa 0 with h | h
    · exact h
    · obtain ⟨a, t, rfl⟩ := List.exists_cons_of_ne_nil hne
      have h1 : a ≤ (0 : ℚ) := h ▸ mem_le_foldl_max a _ 0 (List.mem_cons_self a t)
      have h2 : (0 : ℚ) ≤ a := hpos a (List.mem_cons_self a t)
      rw [h, ← le_antisymm h1 h2]
      exact List.mem_cons_self a t
  · intro x hx
    exact mem_le_foldl_max x fa 0 hx

/-- The report loop never writes the registry component of its
accumulator. -/
theorem logFoldl_snd (l : Registry) (acc : List (TimedEventType × ℚ × ℚ) × Registry) :
    (l.foldl logLineStep acc).2 = acc.2 := by
  induction l generalizing acc with
  | nil => rfl
  | cons p t ih =>
    rw [List.foldl_cons, ih]
    unfold logLineStep
    split_ifs <;> rfl

/-- Every report line comes from a registry entry with a non-empty window
and carries that entry's statistics. -/
theorem mem_logFoldl {out : TimedEventType × ℚ × ℚ} (l : Registry) :
    ∀ acc, out ∈ (l.foldl logLineStep acc).1 →
      out ∈ acc.1 ∨
        ∃ p, p ∈ l ∧ p.2.freq_array ≠ [] ∧ out = (p.1, summarizeFold p.2.freq_array) := by
  induction l with
  | nil =>
    intro acc h
    exact Or.inl h
  | cons q t ih =>
    intro acc h
    rw [List.foldl_cons] at h
    rcases ih _ h with h1 | h1
    · unfold logLineStep at h1
      split_ifs at h1 with hq
      · exact Or.inl h1
      · rcases List.mem_append.mp h1 with h2 | h2
        · exact Or.inl h2
        · refine Or.inr ⟨q, List.mem_cons_self _ _, ?_, ?_⟩
          · simpa [List.isEmpty_iff] using hq
          · simpa using h2
    · obtain ⟨p, hp, h2, h3⟩ := h1
      exact Or.inr ⟨p, List.mem_cons_of_mem _ hp, h2, h3⟩

/-! ### Concrete evaluations -/

/-- A non-duplicate event on a window that is not yet full appends to both
lists and evicts nothing. -/
theorem processEventData_step_small (ts last : Nat) (v : EventData)
    (hlast : v.timestamps.getLast? = some last) (hne : ts ≠ last)
    (hfa : ¬ v.freq_array.isEmpty)
    (hlen : v.freq_array.length + 1 ≤ event_data_freq_array_size) :
    processEventData ts v =
      { timestamps := v.timestamps ++ [ts]
        freq_array := v.freq_array ++ [1000 / ((usub32 ts last : Nat) : ℚ)]
        average_freq := v.average_freq } := by
  rw [processEventData_step ts last v hlast hne hfa]
  exact evictLoop_eq_self _ (by simp only [List.length_append, List.length_singleton]; omega)

theorem processEventData_empty (ts : Nat) :
    processEventData ts emptyEventData =
      { timestamps := [ts], freq_array := [0], average_freq := 0 } := by
  rw [processEventData_first ts emptyEventData (by simp [emptyEventData]) rfl]
  rfl

/-- The scenario run `[0, 10, 10, 30]` of the spec, fully evaluated: the
duplicate `10` is dropped and the three surviving samples give frequencies
`[0, 100, 50]`. -/
theorem runClass_scenario :
    runClass [0, 10, 10, 30] =
      { timestamps := [0, 10, 30], freq_array := [0, 100, 50], average_freq := 0 } := by
  have h1 : processEventData 10 (⟨[0], [0], 0⟩ : EventData) = ⟨[0, 10], [0, 100], 0⟩ := by
    rw [processEventData_step_small 10 0 (⟨[0], [0], 0⟩ : EventData) rfl (by decide)
      (by simp) (by norm_num [event_data_freq_array_size])]
    norm_num [usub32, u32size]
  have h2 : processEventData 30 (⟨[0, 10], [0, 100], 0⟩ : EventData) =
      ⟨[0, 10, 30], [0, 100, 50], 0⟩ := by
    rw [processEventData_step_small 30 10 (⟨[0, 10], [0, 100], 0⟩ : EventData) rfl
      (by decide) (by simp) (by norm_num [event_data_freq_array_size])]
    norm_num [usub32, u32size]
  show processEventData 30 (processEventData 10 (processEventData 10
    (processEventData 0 emptyEventData))) = _
  rw [processEventData_empty, h1,
    processEventData_dup 10 (⟨[0, 10], [0, 100], 0⟩ : EventData) rfl, h2]

/-- The two-sample run `[1000, 1010]`: the second call appends
`1000 / 10 = 100`. -/
theorem runClass_pair :
    runClass [1000, 1010] =
      { timestamps := [1000, 1010], freq_array := [0, 100], average_freq := 0 } := by
  have h1 : processEventData 1010 (⟨[1000], [0], 0⟩ : EventData) =
      ⟨[1000, 1010], [0, 100], 0⟩ := by
    rw [processEventData_step_small 1010 1000 (⟨[1000], [0], 0⟩ : EventData) rfl
      (by decide) (by simp) (by norm_num [event_data_freq_array_size])]
    norm_num [usub32, u32size]
  show processEventData 1010 (processEventData 1000 emptyEventData) = _
  rw [processEventData_empty, h1]

/-! ### The claims -/

/-- C1: for every sequence of `record` calls, each per-class tracker state
keeps `len(timestamps) = len(frequencies)` with both at most `W = 64`; and
after more than 64 strictly increasing records for one class, both lists
have length exactly 64 and the timestamps are exactly the 64 most recent
samples in arrival order (oldest evicted first). -/
theorem claim_C1 :
    (∀ (evs : List (TimedEventType × Nat)) (t : TimedEventType) (v : EventData),
      mapFind (runEvents evs) t = some v →
      v.freq_array.length = v.timestamps.length ∧
      v.timestamps.length ≤ event_data_freq_array_size) ∧
    (∀ l : List Nat, List.Chain' (· < ·) l → event_data_freq_array_size < l.length →
      (runClass l).timestamps = l.drop (l.length - event_data_freq_array_size) ∧
      (runClass l).timestamps.length = event_data_freq_array_size ∧
      (runClass l).freq_array.length = event_data_freq_array_size) := by
  constructor
  · intro evs t v hv
    exact (runEvents_inv evs _ (mapFind_mem hv)).1
  · intro l hc hlen
    obtain ⟨hts, hfl, -⟩ := runClass_chain l hc
    have h1 : (runClass l).timestamps.length = event_data_freq_array_size := by
      rw [hts, List.length_drop]
      omega
    exact ⟨hts, h1, by rw [hfl, h1]⟩

/-- Witness for C1: the one-event run `[(Keyboard, 5)]` for the registry
invariant, and the 100-sample strictly increasing run `range 100` for the
window bound. -/
theorem claim_C1_witness :
    (mapFind (runEvents [(TimedEventType.Keyboard, 5)]) TimedEventType.Keyboard =
      some (⟨[5], [0], 0⟩ : EventData)) ∧
    ((⟨[5], [0], 0⟩ : EventData).freq_array.length =
      (⟨[5], [0], 0⟩ : EventData).timestamps.length) ∧
    List.Chain' (· < ·) (List.range 100) ∧
    event_data_freq_array_size < (List.range 100).length ∧
    (runClass (List.range 100)).timestamps.length = event_data_freq_array_size := by
  have hchain : List.Chain' (· < ·) (List.range 100) :=
    List.chain'_iff_pairwise.mpr (List.pairwise_lt_range 100)
  have hfind : mapFind (runEvents [(TimedEventType.Keyboard, 5)]) TimedEventType.Keyboard =
      some (⟨[5], [0], 0⟩ : EventData) := by
    have hrun : runEvents [(TimedEventType.Keyboard, 5)] =
        [(TimedEventType.Keyboard, (⟨[5], [0], 0⟩ : EventData))] := by
      show mapInsert [] TimedEventType.Keyboard (processEventData 5 emptyEventData) = _
      rw [processEventData_empty]
      rfl
    rw [hrun]
    rfl
  refine ⟨hfind, (claim_C1.1 _ _ _ hfind).1, hchain,
    by simp [event_data_freq_array_size], ?_⟩
  exact (claim_C1.2 (List.range 100) hchain (by simp [event_data_freq_array_size])).2.1

/-- C2: `record` appends frequency sample `0` when the class's frequency
window is empty, and otherwise appends `1000 / (ts - last)`; concretely,
`record(C, 1000)` followed by `record(C, 1010)` appends `100` on the second
call. -/
theorem claim_C2 :
    (∀ (ts : Nat) (v : EventData), v.freq_array = [] →
      v.timestamps.getLast? ≠ some ts →
      (processEventData ts v).freq_array = [0]) ∧
    (∀ (ts last : Nat) (v : EventData), v.timestamps.getLast? = some last →
      last < ts → ts < u32size → v.freq_array ≠ [] →
      v.freq_array.length = v.timestamps.length →
      v.timestamps.length ≤ event_data_freq_array_size →
      (processEventData ts v).freq_array.getLast? =
        some (1000 / ((ts - last : Nat) : ℚ))) ∧
    (runClass [1000, 1010]).freq_array = [0, 100] := by
  refine ⟨?_, ?_, by rw [runClass_pair]⟩
  · intro ts v hfa hdup
    rw [processEventData_first ts v hdup hfa]
  · intro ts last v hlast hlt hts hfa hlen hle
    have hne : ts ≠ last := by omega
    have husub : usub32 ts last = ts - last := by
      simp only [usub32, u32size] at *
      omega
    rw [processEventData_closed ts last v hlast hne hfa hlen hle, husub]
    show ((v.freq_array ++ [1000 / ((ts - last : Nat) : ℚ)]).drop
      (v.timestamps.length + 1 - event_data_freq_array_size)).getLast? = _
    rw [getLast?_drop_of_lt _ _ (by
      simp only [List.length_append, List.length_singleton]
      simp only [event_data_freq_array_size] at *
      omega)]
    exact List.getLast?_concat _

/-- Witness for C2: the first-sample case at `ts = 7` on a fresh state and
the frequency formula at `1000` then `1010` (appending `1000/10`). -/
theorem claim_C2_witness :
    (emptyEventData.freq_array = [] ∧
      emptyEventData.timestamps.getLast? ≠ some 7 ∧
      (processEventData 7 emptyEventData).freq_array = [0]) ∧
    ((⟨[1000], [0], 0⟩ : EventData).timestamps.getLast? = some 1000 ∧
      1000 < 1010 ∧ 1010 < u32size ∧
      (processEventData 1010 (⟨[1000], [0], 0⟩ : EventData)).freq_array.getLast? =
        some (1000 / ((1010 - 1000 : Nat) : ℚ))) := by
  refine ⟨⟨rfl, by simp [emptyEventData], ?_⟩,
    ⟨rfl, by norm_num, by norm_num [u32size], ?_⟩⟩
  · exact claim_C2.1 7 emptyEventData rfl (by simp [emptyEventData])
  · exact claim_C2.2.1 1010 1000 _ rfl (by norm_num) (by norm_num [u32size])
      (by simp) rfl (by norm_num [event_data_freq_array_size])

/-- C3: an event whose timestamp equals the last stored timestamp of its
class leaves the whole tracker state unchanged; hence recording the same
`(class, timestamp)` twice in a row leaves window length and contents
identical to after the first call. -/
theorem claim_C3 :
    (∀ (ts : Nat) (v : EventData), v.timestamps ≠ [] →
      v.timestamps.getLast? = some ts → processEventData ts v = v) ∧
    (∀ (ts : Nat) (v : EventData), EventDataWF v →
      processEventData ts (processEventData ts v) = processEventData ts v) := by
  refine ⟨fun ts v _ h => processEventData_dup ts v h, ?_⟩
  intro ts v hwf
  by_cases hdup : v.timestamps.getLast? = some ts
  · rw [processEventData_dup ts v hdup]
    exact processEventData_dup ts v hdup
  · have hlast' : (processEventData ts v).timestamps.getLast? = some ts := by
      by_cases hfa : v.freq_array = []
      · rw [processEventData_first ts v hdup hfa]
        exact List.getLast?_concat _
      · obtain ⟨hlen, hle⟩ := hwf
        have htsne : v.timestamps ≠ [] := by
          intro he
          rw [he] at hlen
          simp only [List.length_nil] at hlen
          exact hfa (List.length_eq_zero.mp hlen)
        obtain ⟨last, hlast⟩ := Option.ne_none_iff_exists'.mp
          (mt List.getLast?_eq_none_iff.mp htsne)
        have hne : ts ≠ last := fun he => hdup (he ▸ hlast)
        rw [processEventData_closed ts last v hlast hne hfa hlen hle]
        show ((v.timestamps ++ [ts]).drop
          (v.timestamps.length + 1 - event_data_freq_array_size)).getLast? = _
        rw [getLast?_drop_of_lt _ _ (by
          simp only [List.length_append, List.length_singleton]
          simp only [event_data_freq_array_size] at *
          omega)]
        exact List.getLast?_concat _
    exact processEventData_dup ts _ hlast'

/-- Witness for C3: the duplicate timestamp `5` on the state holding `[5]`,
and the double-record idempotence at `ts = 9` from the fresh state. -/
theorem claim_C3_witness :
    ((⟨[5], [0], 0⟩ : EventData).timestamps ≠ [] ∧
      (⟨[5], [0], 0⟩ : EventData).timestamps.getLast? = some 5 ∧
      processEventData 5 (⟨[5], [0], 0⟩ : EventData) = ⟨[5], [0], 0⟩) ∧
    (EventDataWF emptyEventData ∧
      processEventData 9 (processEventData 9 emptyEventData) =
        processEventData 9 emptyEventData) := by
  refine ⟨⟨by simp, rfl, ?_⟩, ⟨emptyEventData_wf, ?_⟩⟩
  · exact claim_C3.1 5 _ (by simp) rfl
  · exact claim_C3.2 9 emptyEventData emptyEventData_wf

/-- C4: feeding timestamps `[0, 10, 10, 30]` to class `Mouse` yields
frequencies `[0, 100, 50]` and a timestamp window of length 3 (the
duplicate `10` is dropped; the last delta `30 - 10 = 20` gives `50`). -/
theorem claim_C4 :
    mapFind (runEvents [(TimedEventType.Mouse, 0), (TimedEventType.Mouse, 10),
        (TimedEventType.Mouse, 10), (TimedEventType.Mouse, 30)]) TimedEventType.Mouse =
      some (⟨[0, 10, 30], [0, 100, 50], 0⟩ : EventData) ∧
    (runClass [0, 10, 10, 30]).freq_array = [0, 100, 50] ∧
    (runClass [0, 10, 10, 30]).timestamps.length = 3 := by
  have hrun : runEvents [(TimedEventType.Mouse, 0), (TimedEventType.Mouse, 10),
      (TimedEventType.Mouse, 10), (TimedEventType.Mouse, 30)] =
      [(TimedEventType.Mouse, runClass [0, 10, 10, 30])] := rfl
  refine ⟨?_, by rw [runClass_scenario], by rw [runClass_scenario]; rfl⟩
  rw [hrun, runClass_scenario]
  rfl

/-- C7: a `record` call for one device class never changes the other
class's tracker state. -/
theorem claim_C7 : ∀ (t t' : TimedEventType) (ts : Nat) (m : Registry),
    t' ≠ t → mapFind (processEvent t ts m) t' = mapFind m t' := by
  intro t t' ts m hne
  exact mapFind_mapInsert_ne m t t' _ hne

/-- Witness for C7: a `Keyboard` record leaves the `Mouse` lookup on the
empty registry unchanged. -/
theorem claim_C7_witness :
    TimedEventType.Mouse ≠ TimedEventType.Keyboard ∧
    mapFind (processEvent TimedEventType.Keyboard 1 []) TimedEventType.Mouse =
      mapFind ([] : Registry) TimedEventType.Mouse :=
  ⟨by decide, claim_C7 TimedEventType.Keyboard TimedEventType.Mouse 1 [] (by decide)⟩

/-- C9: the reporter does not mutate any tracker state: the registry after
`logEventData` is the registry it was given. -/
theorem claim_C9 : ∀ m : Registry, (logEventData m).2 = m :=
  fun m => logFoldl_snd m ([], m)

/-- C10: every class present in a reachable registry has non-empty
`timestamps` and `frequencies`: lazy creation always records a first sample
in the same call, so a registered class with zero samples is unreachable. -/
theorem claim_C10 : ∀ (evs : List (TimedEventType × Nat)) (t : TimedEventType)
    (v : EventData), mapFind (runEvents evs) t = some v →
    v.timestamps ≠ [] ∧ v.freq_array ≠ [] := by
  intro evs t v hv
  have h := runEvents_inv evs _ (mapFind_mem hv)
  exact ⟨h.2.1, h.2.2.1⟩

/-- Witness for C10: the single-event run `[(Mouse, 3)]`. -/
theorem claim_C10_witness :
    mapFind (runEvents [(TimedEventType.Mouse, 3)]) TimedEventType.Mouse =
      some (⟨[3], [0], 0⟩ : EventData) ∧
    (⟨[3], [0], 0⟩ : EventData).timestamps ≠ [] ∧
    (⟨[3], [0], 0⟩ : EventData).freq_array ≠ [] := by
  have hfind : mapFind (runEvents [(TimedEventType.Mouse, 3)]) TimedEventType.Mouse =
      some (⟨[3], [0], 0⟩ : EventData) := by
    have hrun : runEvents [(TimedEventType.Mouse, 3)] =
        [(TimedEventType.Mouse, (⟨[3], [0], 0⟩ : EventData))] := by
      show mapInsert [] TimedEventType.Mouse (processEventData 3 emptyEventData) = _
      rw [processEventData_empty]
      rfl
    rw [hrun]
    rfl
  exact ⟨hfind, claim_C10 _ _ _ hfind⟩

/-- C5: on every reachable registry, each line the reporter emits carries
that class's window maximum and its mean `sum / len`; on the synthetic
window `[0, 100, 50, 100]` the reported pair is max `100` and average
`62.5` (the sentinel `0` participates in both statistics). -/
theorem claim_C5 :
    (∀ (evs : List (TimedEventType × Nat)) (out : TimedEventType × ℚ × ℚ),
      out ∈ (logEventData (runEvents evs)).1 →
      ∃ v : EventData, (out.1, v) ∈ runEvents evs ∧ v.freq_array ≠ [] ∧
        out.2.2 = v.freq_array.sum / (v.freq_array.length : ℚ) ∧
        out.2.1 ∈ v.freq_array ∧ ∀ x ∈ v.freq_array, x ≤ out.2.1) ∧
    summarizeFold [0, 100, 50, 100] = (100, 125 / 2) := by
  constructor
  · intro evs out hout
    rcases mem_logFoldl _ ([], runEvents evs) hout with h | h
    · simp at h
    · obtain ⟨p, hp, hfp, hout'⟩ := h
      obtain ⟨-, -, -, hpos⟩ := runEvents_inv evs p hp
      obtain ⟨h1, h2, h3⟩ := summarizeFold_spec p.2.freq_array hfp hpos
      refine ⟨p.2, ?_, hfp, ?_, ?_, ?_⟩
      · rw [hout']
        simpa using hp
      · rw [hout']
        exact h1
      · rw [hout']
        exact h2
      · rw [hout']
        exact h3
  · norm_num [summarizeFold]

/-- Witness for C5: the one-event run `[(Mouse, 0)]`, whose report holds
the single line `(Mouse, 0, 0)`. -/
theorem claim_C5_witness :
    ((TimedEventType.Mouse, (0 : ℚ), (0 : ℚ)) ∈
      (logEventData (runEvents [(TimedEventType.Mouse, 0)])).1) ∧
    (∃ v : EventData, (TimedEventType.Mouse, v) ∈ runEvents [(TimedEventType.Mouse, 0)] ∧
      v.freq_array ≠ [] ∧ (0 : ℚ) = v.freq_array.sum / (v.freq_array.length : ℚ) ∧
      (0 : ℚ) ∈ v.freq_array ∧ ∀ x ∈ v.freq_array, x ≤ (0 : ℚ)) := by
  have hrun : runEvents [(TimedEventType.Mouse, 0)] =
      [(TimedEventType.Mouse, (⟨[0], [0], 0⟩ : EventData))] := by
    show mapInsert [] TimedEventType.Mouse (processEventData 0 emptyEventData) = _
    rw [processEventData_empty]
    rfl
  have hsum : summarizeFold [0] = ((0 : ℚ), (0 : ℚ)) := by norm_num [summarizeFold]
  have hout : (TimedEventType.Mouse, (0 : ℚ), (0 : ℚ)) ∈
      (logEventData (runEvents [(TimedEventType.Mouse, 0)])).1 := by
    rw [hrun]
    show (TimedEventType.Mouse, (0 : ℚ), (0 : ℚ)) ∈
      (logLineStep ([], [(TimedEventType.Mouse, (⟨[0], [0], 0⟩ : EventData))])
        (TimedEventType.Mouse, (⟨[0], [0], 0⟩ : EventData))).1
    rw [logLineStep, if_neg (by simp)]
    rw [show (([] : List (TimedEventType × ℚ × ℚ)) ++
        [(TimedEventType.Mouse, summarizeFold [0])]) = [(TimedEventType.Mouse, summarizeFold [0])]
      from rfl, hsum]
    exact List.mem_singleton.mpr rfl
  exact ⟨hout, claim_C5.1 [(TimedEventType.Mouse, 0)] _ hout⟩

/-- C6: the reporter never emits a line for a class whose frequency window
is empty, an entirely empty registry produces no output lines, and the
reporter is a total function (it never raises). -/
theorem claim_C6 :
    (∀ (m : Registry) (t : TimedEventType),
      (∀ v : EventData, (t, v) ∈ m → v.freq_array = []) →
      ∀ out ∈ (logEventData m).1, out.1 ≠ t) ∧
    (logEventData []).1 = [] := by
  refine ⟨?_, rfl⟩
  intro m t hm out hout he
  rcases mem_logFoldl m ([], m) hout with h | h
  · simp at h
  · obtain ⟨p, hp, hfp, hout'⟩ := h
    have hpt : p.1 = t := by
      rw [hout'] at he
      simpa using he
    apply hfp
    apply hm p.2
    rw [← hpt]
    simpa using hp

/-- Witness for C6: a registry holding `Keyboard` with an empty window
produces no `Keyboard` line. -/
theorem claim_C6_witness :
    (∀ v : EventData, (TimedEventType.Keyboard, v) ∈
        ([(TimedEventType.Keyboard, emptyEventData)] : Registry) → v.freq_array = []) ∧
    (∀ out ∈ (logEventData [(TimedEventType.Keyboard, emptyEventData)]).1,
      out.1 ≠ TimedEventType.Keyboard) := by
  have hv : ∀ v : EventData, (TimedEventType.Keyboard, v) ∈
      ([(TimedEventType.Keyboard, emptyEventData)] : Registry) → v.freq_array = [] := by
    intro v hv
    simp only [List.mem_singleton, Prod.mk.injEq] at hv
    rw [hv.2]
    rfl
  exact ⟨hv, claim_C6.1 _ TimedEventType.Keyboard hv⟩

/-- C8: `record` never raises: on an out-of-order timestamp (strictly
below the last recorded one) it still appends a frequency sample, computed
from the unsigned 32-bit wrapped difference `(ts - last) mod 2^32`. -/
theorem claim_C8 : ∀ (ts last : Nat) (v : EventData),
    v.timestamps.getLast? = some last → ts < last → last < u32size →
    v.freq_array ≠ [] → v.freq_array.length = v.timestamps.length →
    v.timestamps.length ≤ event_data_freq_array_size →
    (processEventData ts v).freq_array.getLast? =
      some (1000 / ((((ts : ℤ) - (last : ℤ)) % (u32size : ℤ) : ℤ) : ℚ)) ∧
    (processEventData ts v).freq_array.length =
      min (v.freq_array.length + 1) event_data_freq_array_size := by
  intro ts last v hlast hlt hb hfa hlen hle
  have hne : ts ≠ last := by omega
  have husub : ((usub32 ts last : Nat) : ℤ) = ((ts : ℤ) - (last : ℤ)) % (u32size : ℤ) := by
    simp only [usub32, u32size] at *
    omega
  rw [processEventData_closed ts last v hlast hne hfa hlen hle]
  constructor
  · show ((v.freq_array ++ [1000 / ((usub32 ts last : Nat) : ℚ)]).drop
      (v.timestamps.length + 1 - event_data_freq_array_size)).getLast? = _
    rw [getLast?_drop_of_lt _ _ (by
      simp only [List.length_append, List.length_singleton]
      simp only [event_data_freq_array_size] at *
      omega)]
    have hcast : ((((ts : ℤ) - (last : ℤ)) % (u32size : ℤ) : ℤ) : ℚ) =
        ((usub32 ts last : Nat) : ℚ) := by
      rw [← husub]
      simp
    rw [List.getLast?_concat, hcast]
  · show ((v.freq_array ++ [1000 / ((usub32 ts last : Nat) : ℚ)]).drop
      (v.timestamps.length + 1 - event_data_freq_array_size)).length = _
    simp only [List.length_drop, List.length_append, List.length_singleton, hlen]
    simp only [event_data_freq_array_size]
    omega

/-- Witness for C8: the out-of-order timestamp `5` after `10`, appending
`1000 / ((5 - 10) mod 2^32)`. -/
theorem claim_C8_witness :
    (⟨[10], [0], 0⟩ : EventData).timestamps.getLast? = some 10 ∧
    5 < 10 ∧ 10 < u32size ∧
    (processEventData 5 (⟨[10], [0], 0⟩ : EventData)).freq_array.getLast? =
      some (1000 / ((((5 : ℤ) - (10 : ℤ)) % (u32size : ℤ) : ℤ) : ℚ)) := by
  refine ⟨rfl, by norm_num, by norm_num [u32size], ?_⟩
  exact (claim_C8 5 10 (⟨[10], [0], 0⟩ : EventData) rfl (by norm_num)
    (by norm_num [u32size]) (by simp) rfl
    (by norm_num [event_data_freq_array_size])).1

end Evhz
